import Mathlib

/-!
Verification of the ContractSniffer endpoint-selection and block-watching
pipeline (`utils/block_watcher.py` and `utils/node_finder.py`), as a shallow
embedding in Lean 4.

Network calls are modelled by oracles passed as explicit arguments: each
fallible RPC call becomes an `Option` value (`none` = the call raised), and
the outcome of a whole probing run becomes a list of collected results.
Addresses are abstracted as naturals; contract code is a byte list, so that
the source's `code == b""` test is the emptiness test on the list.
-/

namespace ContractSniffer

/-- Abstract contract address (the checksummed string of the source). -/
abbrev Addr := Nat

/-- Transaction receipt, as used by `_process_tx`: `contractAddress` is set for
contract-creation transactions, `toAddr` is the source's `to` field (a
keyword in Lean).  `none` models a Python falsy field (absent / `None`). -/
structure Receipt where
  contractAddress : Option Addr
  toAddr : Option Addr
deriving DecidableEq, Repr

/-- The per-transaction oracle: the outcomes of the three RPC calls
`get_transaction_receipt`, `get_code`, `get_balance` that `_process_tx`
issues for one transaction hash.  `none` means the call raised. -/
structure TxWork where
  receipt : Option Receipt
  code : Option (List Nat)
  bal : Option Nat
deriving DecidableEq, Repr

/-- Candidate address determination of `_process_tx` (lines 131-138):
`receipt.contractAddress` if truthy, else `receipt.to`; `none` when the
receipt fetch raised or both fields are falsy. -/
def candidateAddr (t : TxWork) : Option Addr :=
  match t.receipt with
  | none => none
  | some r =>
    match r.contractAddress with
    | some a => some a
    | none => r.toAddr

/-- The reporting threshold `int(0.1 * 1e18)` of line 172.  In IEEE-754 double
arithmetic `0.1` is `3602879701896397 / 2^55`, `1e18` is exact, and the
rounded product truncates to `10^17`; see `threshold_float_model`. -/
def threshold : Nat := 100000000000000000

/-- The nearest double to 1/10 is `3602879701896397 * 2^(-55)` (it is within
half an ulp, `2^(-56)`), and the exact real product of that double with
`10^18` lies strictly within half an ulp (`8` at this magnitude) of the
representable integer `10^17`, which is what `threshold` is. -/
theorem threshold_float_model :
    |(1 : ℚ) / 10 - 3602879701896397 / 2 ^ 55| ≤ 1 / 2 ^ 56 ∧
    |(3602879701896397 : ℚ) * 10 ^ 18 / 2 ^ 55 - (threshold : ℚ)| < 8 ∧
    threshold % 16 = 0 ∧ threshold = 10 ^ 17 := by
  refine ⟨?_, ?_, by norm_num [threshold], by norm_num [threshold]⟩
  · rw [abs_le]; norm_num
  · rw [abs_lt]; norm_num [threshold]

/-- Shallow embedding of `_process_tx` (block_watcher.py lines 115-178),
sequentialised: given the shared `seen_contracts` set it returns the updated
set together with the emitted event, if any.  The control flow mirrors the
source: early return on receipt failure or missing address; atomic
test-and-set on the seen set; code fetch (failure or empty code undoes the
insertion); balance fetch (failure undoes it); emission iff
`balance > threshold`, otherwise the insertion is undone. -/
def process_tx (t : TxWork) (seen : Finset Addr) :
    Finset Addr × Option (Addr × Nat) :=
  match candidateAddr t with
  | none => (seen, none)
  | some addr =>
    if addr ∈ seen then (seen, none)
    else
      let seen1 := insert addr seen
      match t.code with
      | none => (seen1.erase addr, none)
      | some code =>
        if code = [] then (seen1.erase addr, none)
        else
          match t.bal with
          | none => (seen1.erase addr, none)
          | some balance =>
            if balance > threshold then (seen1, some (addr, balance))
            else (seen1.erase addr, none)

/-- C2: an address whose fetched balance is exactly `10^17` wei is NOT
reported and one whose balance is `10^17 + 1` IS reported: `_process_tx`
emits an event exactly when the balance strictly exceeds the threshold, and
the code's threshold constant `int(0.1 * 1e18)` equals `10^17`. -/
theorem process_tx_threshold_boundary (t : TxWork) (seen : Finset Addr)
    (addr : Addr) (code : List Nat) (b : Nat)
    (h1 : candidateAddr t = some addr) (h2 : addr ∉ seen)
    (h3 : t.code = some code) (h4 : code ≠ []) (h5 : t.bal = some b) :
    threshold = 10 ^ 17 ∧
      ((process_tx t seen).2 = some (addr, b) ↔ 10 ^ 17 < b) := by
  have ht : threshold = 10 ^ 17 := by norm_num [threshold]
  refine ⟨ht, ?_⟩
  simp only [process_tx, h1, h3, h5, if_neg h2, if_neg h4]
  by_cases hb : threshold < b
  · rw [if_pos hb]
    simp only [threshold] at hb
    norm_num [hb]
  · rw [if_neg hb]
    simp only [threshold] at hb
    norm_num [hb]
    simp

/-- Witness for C2: with a fresh address, nonempty code and balance
`10^17 + 1`, the event is emitted (and it would not be at `10^17`). -/
theorem process_tx_threshold_boundary_witness :
    threshold = 10 ^ 17 ∧
      ((process_tx ⟨some ⟨some 5, none⟩, some [1], some (10 ^ 17 + 1)⟩ ∅).2 =
          some (5, 10 ^ 17 + 1) ↔ 10 ^ 17 < 10 ^ 17 + 1) :=
  process_tx_threshold_boundary _ _ 5 [1] _ rfl (by decide) rfl (by decide) rfl

/-- C7: whenever `_process_tx` abandons a transaction (returns no event) —
receipt failure, no candidate address, already seen, code-fetch failure,
empty code, balance-fetch failure, or balance not above the threshold — the
seen set it returns is exactly the seen set it was given: a provisionally
added address never remains behind. -/
theorem process_tx_abandon_restores_seen (t : TxWork) (seen : Finset Addr)
    (h : (process_tx t seen).2 = none) : (process_tx t seen).1 = seen := by
  unfold process_tx at h ⊢
  cases hc : candidateAddr t with
  | none => simp
  | some addr =>
    simp only [hc] at h ⊢
    by_cases hm : addr ∈ seen
    · simp [hm]
    · simp only [if_neg hm] at h ⊢
      cases hcode : t.code with
      | none => simp [Finset.erase_insert hm]
      | some code =>
        simp only [hcode] at h ⊢
        by_cases he : code = []
        · simp [he, Finset.erase_insert hm]
        · simp only [if_neg he] at h ⊢
          cases hbal : t.bal with
          | none => simp [Finset.erase_insert hm]
          | some b =>
            simp only [hbal] at h ⊢
            by_cases hb : b > threshold
            · simp [hb] at h
            · simp [if_neg hb, Finset.erase_insert hm]

/-- Witness for C7: a code-fetch failure undoes the provisional insertion,
leaving the empty seen set empty. -/
theorem process_tx_abandon_restores_seen_witness :
    (process_tx ⟨some ⟨some 3, none⟩, none, none⟩ ∅).1 = ∅ :=
  process_tx_abandon_restores_seen _ _ (by decide)

/-! ### The polling loop of `watch_new_contracts` (block_watcher.py 32-112) -/

/-- One entry of `rpc_entries`: either a bare URL string or a
`(name, url)` pair (lines 18-23). -/
def entryUrl : String ⊕ (String × String) → String
  | .inl url => url
  | .inr (_, url) => url

/-- Startup failures of `watch_new_contracts`: the `ValueError` of line 50
for an empty `rpc_entries` list, and the `RuntimeError` of line 66 when the
initial head fetch raises. -/
inductive InitError where
  | valueError
  | runtimeError
deriving DecidableEq, Repr

/-- Initialization of `watch_new_contracts` (lines 49-68): reject an empty
`rpc_entries` list, then fetch the chain head from the FIRST endpoint of the
round-robin cycle (`w3_first = next(rr_w3)`), raising `RuntimeError` if that
single attempt fails; otherwise the starting cursor is `from_block` when
supplied, else the fetched head.  `heads` is the oracle giving each
endpoint's `eth.block_number` outcome. -/
def watchInit (rpc_entries : List (String ⊕ (String × String)))
    (from_block : Option Nat) (heads : String → Option Nat) :
    Except InitError Nat :=
  match rpc_entries with
  | [] => .error .valueError
  | e :: _ =>
    match heads (entryUrl e) with
    | none => .error .runtimeError
    | some latest => .ok (from_block.getD latest)

/-- State threaded through the polling loop: the scan cursor `current`, the
shared `seen_contracts` set, and the stream of events yielded so far. -/
structure LoopSt where
  current : Nat
  seen : Finset Addr
  events : List (Addr × Nat)
deriving DecidableEq

/-- Oracle for one iteration of the `while True` loop: the outcome of the
poll's `eth.block_number` call and, per block number, the outcome of
`get_block` (`none` = the call raised, otherwise the transaction list with
each transaction's own RPC outcomes). -/
structure PollOracle where
  head : Option Nat
  blocks : Nat → Option (List TxWork)

/-- Body of the `for block_number in range(...)` loop (lines 86-109) for one
block: a failed block fetch skips the block, an empty transaction list skips
it, otherwise every transaction is processed against the shared seen set and
qualifying results are yielded.  The cursor is not touched here — the source
loop body never assigns `current`. -/
def processBlock (st : LoopSt) (b : Option (List TxWork)) : LoopSt :=
  match b with
  | none => st
  | some txs =>
    if txs = [] then st
    else
      let p := txs.foldl
        (fun (acc : Finset Addr × List (Addr × Nat)) t =>
          match process_tx t acc.1 with
          | (s, some e) => (s, acc.2 ++ [e])
          | (s, none) => (s, acc.2)) (st.seen, st.events)
      ⟨st.current, p.1, p.2⟩

/-- One iteration of the main polling loop (lines 71-112): a failed head
fetch or a head not beyond the cursor leaves the state unchanged (sleep and
retry); otherwise blocks `current+1 .. latest` are processed in order and
only then is the cursor set to `latest` (line 112). -/
def pollIteration (st : LoopSt) (o : PollOracle) : LoopSt :=
  match o.head with
  | none => st
  | some latest =>
    if latest ≤ st.current then st
    else
      let st1 := (List.range' (st.current + 1) (latest - st.current)).foldl
        (fun s bn => processBlock s (o.blocks bn)) st
      ⟨latest, st1.seen, st1.events⟩

/-- A run of the polling loop: a finite prefix of iterations of the
infinite `while True` loop, each driven by its own oracle. -/
def watchRun (st : LoopSt) (os : List PollOracle) : LoopSt :=
  os.foldl pollIteration st

/-- `processBlock` never moves the cursor (the source's block loop never
assigns `current`). -/
theorem processBlock_current (st : LoopSt) (b : Option (List TxWork)) :
    (processBlock st b).current = st.current := by
  unfold processBlock
  cases b with
  | none => rfl
  | some txs =>
    by_cases h : txs = [] <;> simp [h]

/-- Folding `processBlock` over any block range never moves the cursor. -/
theorem foldl_processBlock_current (o : PollOracle) (bs : List Nat)
    (st : LoopSt) :
    (bs.foldl (fun s bn => processBlock s (o.blocks bn)) st).current =
      st.current := by
  induction bs generalizing st with
  | nil => rfl
  | cons b bs ih => rw [List.foldl_cons, ih, processBlock_current]

/-- A single poll iteration never decreases the cursor. -/
theorem pollIteration_current_le (st : LoopSt) (o : PollOracle) :
    st.current ≤ (pollIteration st o).current := by
  unfold pollIteration
  cases o.head with
  | none => exact le_refl _
  | some latest =>
    by_cases h : latest ≤ st.current
    · simp [h]
    · simp only [if_neg h]
      omega

/-- C5: over any run of the polling loop the scan cursor never decreases,
and one iteration that observes a chain head beyond the cursor ends with the
cursor equal to that head — regardless of which block fetches in the range
failed and were skipped. -/
theorem watch_cursor_monotone (st : LoopSt) (os : List PollOracle)
    (o : PollOracle) (latest : Nat) :
    st.current ≤ (watchRun st os).current ∧
      (o.head = some latest → st.current < latest →
        (pollIteration st o).current = latest) := by
  constructor
  · unfold watchRun
    induction os generalizing st with
    | nil => exact le_refl _
    | cons p ps ih =>
      rw [List.foldl_cons]
      exact le_trans (pollIteration_current_le st p) (ih _)
  · intro hh hlt
    unfold pollIteration
    rw [hh]
    simp [Nat.not_le_of_lt hlt]

/-- Witness for C5: a run from cursor 10 that observes head 12 never moves
the cursor backwards and one such iteration lands exactly on 12. -/
theorem watch_cursor_monotone_witness :
    (10 : Nat) ≤
        (watchRun ⟨10, ∅, []⟩ [⟨some 12, fun _ => some []⟩]).current ∧
      (pollIteration ⟨10, ∅, []⟩ ⟨some 12, fun _ => some []⟩).current = 12 :=
  ⟨(watch_cursor_monotone ⟨10, ∅, []⟩ [⟨some 12, fun _ => some []⟩]
      ⟨some 12, fun _ => some []⟩ 12).1,
    (watch_cursor_monotone ⟨10, ∅, []⟩ [] ⟨some 12, fun _ => some []⟩ 12).2
      rfl (by decide)⟩

/-- C6 counterexample: with the cursor at 10 and an observed head of 12 the
range is `[11, 12]`, yet the state in which block 12's processing begins —
the fold of `processBlock` over the prefix `[11]` — still carries cursor 10,
not 11: the cursor is not advanced per block, only once at the end of the
whole range (where it becomes 12). -/
theorem cursor_not_advanced_per_block :
    List.range' (10 + 1) (12 - 10) = [11, 12] ∧
      (processBlock ⟨10, ∅, []⟩ (some [])).current = 10 ∧
      (10 : Nat) ≠ 11 ∧
      (pollIteration ⟨10, ∅, []⟩ ⟨some 12, fun _ => some []⟩).current = 12 :=
  ⟨rfl, rfl, by decide, rfl⟩

/-- C6 amended: within one poll iteration the cursor stays at its pre-range
value throughout the processing of the blocks, and is set once, to the
observed head, after the entire range. -/
theorem cursor_advanced_after_whole_range (st : LoopSt) (o : PollOracle)
    (latest : Nat) (h : o.head = some latest) (hlt : st.current < latest) :
    (∀ bs : List Nat,
        (bs.foldl (fun s bn => processBlock s (o.blocks bn)) st).current =
          st.current) ∧
      (pollIteration st o).current = latest := by
  refine ⟨fun bs => foldl_processBlock_current o bs st, ?_⟩
  unfold pollIteration
  rw [h]
  simp [Nat.not_le_of_lt hlt]

/-- Witness for the amended C6 at cursor 10 and head 12. -/
theorem cursor_advanced_after_whole_range_witness :
    (∀ bs : List Nat,
        (bs.foldl
          (fun s bn =>
            processBlock s ((PollOracle.mk (some 12) fun _ => some []).blocks
              bn)) ⟨10, ∅, []⟩).current = (10 : Nat)) ∧
      (pollIteration ⟨10, ∅, []⟩ ⟨some 12, fun _ => some []⟩).current = 12 :=
  cursor_advanced_after_whole_range ⟨10, ∅, []⟩ ⟨some 12, fun _ => some []⟩
    12 rfl (by decide)

/-- C9: the initial head fetch is attempted on the first endpoint of the
rotation only — with endpoints `a, b` where `a` fails and `b` would answer,
`watch_new_contracts` still raises the fatal `RuntimeError`, contradicting
fatality only when every endpoint fails. -/
theorem watchInit_raises_despite_working_second_endpoint :
    watchInit [.inl "a", .inl "b"] none
        (fun u => if u = "b" then some 100 else none) =
        .error .runtimeError ∧
      (fun u : String => if u = "b" then some 100 else none) "b" =
        some 100 := by
  constructor <;> rfl

/-- C10: called on an empty `rpc_entries` list, `watch_new_contracts`
raises `ValueError` at once, whatever the head oracle would answer — no
network call and no event can occur. -/
theorem watchInit_empty_entries (from_block : Option Nat)
    (heads : String → Option Nat) :
    watchInit [] from_block heads = .error .valueError := rfl

/-! ### Endpoint selection (`node_finder.py`)

`get_working_public_nodes` collects probe results through worker threads
that append to shared lists, so a collected list is some permutation of the
probes of the queued nodes; the embedding therefore takes the collected
`latency_results` and `rate_results` lists as inputs, and the theorems
constrain them to arise from a probe oracle over the right nodes. -/

/-- The `(name, url, latency_ms)` triple produced by `_measure_latency`;
`latency = none` models the failure triple `(name, url, None)`. -/
structure LatencyResult where
  name : String
  url : String
  latency : Option Nat
deriving DecidableEq, Repr

/-- The `(name, url, latency_ms, success_count, total_time)` tuple produced
by `_probe_rate_limit`. -/
structure RateResult where
  name : String
  url : String
  latency : Option Nat
  succ : Nat
  total : Nat
deriving DecidableEq, Repr

/-- The two fatal outcomes of `get_working_public_nodes`: no scraped nodes
(line 119) and no latency-responsive nodes (line 139). -/
inductive SelectError where
  | noNodes
  | noResponsive
deriving DecidableEq, Repr

/-- Lines 137-144: keep the latency-responsive results, sort them ascending
by latency, project to `(name, url)` and keep the first `top_n`; raising
`RuntimeError` when nothing was responsive. -/
def topNodes (top_n : Nat) (latency_results : List LatencyResult) :
    Except SelectError (List (String × String)) :=
  let responsive := latency_results.filterMap
    (fun r => r.latency.map fun ms => (r.name, r.url, ms))
  if responsive = [] then .error .noResponsive
  else
    let sorted := responsive.mergeSort
      (fun a b => decide (a.2.2 ≤ b.2.2))
    .ok ((sorted.map fun r => (r.1, r.2.1)).take top_n)

/-- Lines 164-168: keep the probed endpoints whose whole burst succeeded
(`success_count == burst`), projected to `(name, url)`, in the collected
order. -/
def collectWorking (burst : Nat) (rate_results : List RateResult) :
    List (String × String) :=
  (rate_results.filter fun r => r.succ == burst).map fun r => (r.name, r.url)

/-- Shallow embedding of `get_working_public_nodes` (lines 107-170): fatal
on an empty scrape, fatal when no node answers the latency probe, otherwise
the burst survivors among the collected rate results.  The collected lists
stand for the outcome of the two threaded probing phases. -/
def get_working_public_nodes (burst top_n : Nat)
    (all_nodes : List (String × String))
    (latency_results : List LatencyResult)
    (rate_results : List RateResult) :
    Except SelectError (List (String × String)) :=
  if all_nodes = [] then .error .noNodes
  else
    match topNodes top_n latency_results with
    | .error e => .error e
    | .ok _tops => .ok (collectWorking burst rate_results)

/-- C8: every endpoint returned by `get_working_public_nodes` is one whose
burst probe succeeded on every call of the burst (`success_count == burst`);
an endpoint with a smaller success count is never returned.  `probeOf` is
the burst-probe oracle for the selected top nodes, preserving each node's
name and url, and `rate_results` is the thread-collected list of its
results, in an arbitrary completion order. -/
theorem working_nodes_passed_full_burst (burst top_n : Nat)
    (all_nodes : List (String × String))
    (latency_results : List LatencyResult) (rate_results : List RateResult)
    (tops ws : List (String × String))
    (probeOf : String × String → RateResult)
    (hnames : ∀ p, (probeOf p).name = p.1 ∧ (probeOf p).url = p.2)
    (htop : topNodes top_n latency_results = .ok tops)
    (hperm : rate_results.Perm (tops.map probeOf))
    (hok : get_working_public_nodes burst top_n all_nodes latency_results
        rate_results = .ok ws) :
    ∀ e ∈ ws, (probeOf e).succ = burst := by
  intro e he
  have hws : collectWorking burst rate_results = ws := by
    unfold get_working_public_nodes at hok
    by_cases hall : all_nodes = []
    · rw [if_pos hall] at hok
      exact absurd hok (by simp)
    · rw [if_neg hall, htop] at hok
      injection hok
  rw [← hws] at he
  unfold collectWorking at he
  obtain ⟨r, hr, hre⟩ := List.mem_map.mp he
  obtain ⟨hrmem, hrsucc⟩ := List.mem_filter.mp hr
  obtain ⟨p, hp, hpr⟩ := List.mem_map.mp (hperm.mem_iff.mp hrmem)
  have hsucc : r.succ = burst := by simpa using hrsucc
  have hep : e = p := by
    rw [← hre, ← hpr, (hnames p).1, (hnames p).2]
  rw [hep, hpr, hsucc]

/-- Witness for C8: a single endpoint whose burst of 2 calls fully
succeeded is returned, and its success count is the burst size. -/
theorem working_nodes_passed_full_burst_witness :
    ((fun p : String × String => RateResult.mk p.1 p.2 (some 5) 2 0)
        ("a", "u")).succ = 2 :=
  working_nodes_passed_full_burst 2 5 [("a", "u")] [⟨"a", "u", some 5⟩]
    [⟨"a", "u", some 5, 2, 0⟩] [("a", "u")] [("a", "u")]
    (fun p => ⟨p.1, p.2, some 5, 2, 0⟩) (fun _ => ⟨rfl, rfl⟩)
    (by simp [topNodes]) (List.Perm.refl _)
    (by simp [get_working_public_nodes, topNodes, collectWorking])
    ("a", "u") (by decide)

/-- When `get_working_public_nodes` succeeds and the latency phase
succeeded, the returned list is `collectWorking` of the collected rate
results. -/
theorem collectWorking_of_ok (burst top_n : Nat)
    (all_nodes : List (String × String))
    (latency_results : List LatencyResult) (rate_results : List RateResult)
    (tops ws : List (String × String))
    (htop : topNodes top_n latency_results = .ok tops)
    (hok : get_working_public_nodes burst top_n all_nodes latency_results
        rate_results = .ok ws) :
    collectWorking burst rate_results = ws := by
  unfold get_working_public_nodes at hok
  by_cases hall : all_nodes = []
  · rw [if_pos hall] at hok
    exact absurd hok (by simp)
  · rw [if_neg hall, htop] at hok
    injection hok

/-- Every latency triple built by the responsive-filtering step carries the
latency the oracle measured for its node. -/
theorem mem_latencyTriples {latOf : String × String → Option Nat}
    {all_nodes : List (String × String)} {t : String × String × Nat}
    (ht : t ∈ all_nodes.filterMap
      fun p => (latOf p).map fun ms => (p.1, p.2, ms)) :
    latOf (t.1, t.2.1) = some t.2.2 := by
  obtain ⟨p, _, hpt⟩ := List.mem_filterMap.mp ht
  obtain ⟨ms, hms, he⟩ := Option.map_eq_some'.mp hpt
  cases he
  exact hms

/-- C3 amended: when the burst-probe results are collected in the input
order of the latency-selected top nodes (the completion order preserves the
queueing order), the endpoints returned by `get_working_public_nodes` are in
ascending order of their measured latency.  When the completion order is a
different permutation this can fail, see the counterexample. -/
theorem working_nodes_latency_sorted (burst top_n : Nat)
    (all_nodes tops ws : List (String × String))
    (latOf : String × String → Option Nat)
    (probeOf : String × String → RateResult)
    (hnames : ∀ p, (probeOf p).name = p.1 ∧ (probeOf p).url = p.2)
    (htop : topNodes top_n (all_nodes.map fun p => ⟨p.1, p.2, latOf p⟩) =
      .ok tops)
    (hok : get_working_public_nodes burst top_n all_nodes
        (all_nodes.map fun p => ⟨p.1, p.2, latOf p⟩)
        (tops.map probeOf) = .ok ws) :
    ws.Pairwise fun e1 e2 => (latOf e1).getD 0 ≤ (latOf e2).getD 0 := by
  have hws := collectWorking_of_ok burst top_n all_nodes _ _ tops ws htop hok
  -- the returned list is a sublist of the selected top nodes
  have hws2 : ws = tops.filter fun p => (probeOf p).succ == burst := by
    rw [← hws]
    unfold collectWorking
    rw [List.filter_map, List.map_map]
    have hm : List.map ((fun r : RateResult => (r.name, r.url)) ∘ probeOf)
        (List.filter ((fun r : RateResult => r.succ == burst) ∘ probeOf)
          tops) =
        List.map id
          (List.filter ((fun r : RateResult => r.succ == burst) ∘ probeOf)
            tops) :=
      List.map_congr_left
        (fun p _ => by simp [Function.comp, (hnames p).1, (hnames p).2])
    rw [hm, List.map_id]
    rfl
  have hsub : List.Sublist ws tops := hws2 ▸ List.filter_sublist tops
  -- the selected top nodes are latency-sorted
  simp only [topNodes, List.filterMap_map, Function.comp_def] at htop
  by_cases hresp : (all_nodes.filterMap
      fun p => (latOf p).map fun ms => (p.1, p.2, ms)) = []
  · rw [if_pos hresp] at htop
    exact absurd htop (by simp)
  · rw [if_neg hresp] at htop
    have htops_eq := (Except.ok.inj htop).symm
    have hsorted := @List.sorted_mergeSort (String × String × Nat)
      (fun a b => decide (a.2.2 ≤ b.2.2))
      (fun a b c hab hbc =>
        decide_eq_true (Nat.le_trans (of_decide_eq_true hab)
          (of_decide_eq_true hbc)))
      (fun a b => by simpa using Nat.le_total a.2.2 b.2.2)
      (all_nodes.filterMap fun p => (latOf p).map fun ms => (p.1, p.2, ms))
    have htake := List.Pairwise.sublist
      (List.take_sublist top_n _) hsorted
    have htops : tops.Pairwise
        fun e1 e2 => (latOf e1).getD 0 ≤ (latOf e2).getD 0 := by
      rw [htops_eq, ← List.map_take, List.pairwise_map]
      refine htake.imp_of_mem ?_
      intro a b ha hb hab
      have ha2 := mem_latencyTriples
        (List.mem_mergeSort.mp (List.mem_of_mem_take ha))
      have hb2 := mem_latencyTriples
        (List.mem_mergeSort.mp (List.mem_of_mem_take hb))
      rw [ha2, hb2]
      exact of_decide_eq_true hab
    exact List.Pairwise.sublist hsub htops

/-- Witness for the amended C3: two endpoints with latencies 10 and 20,
burst results collected in input order, are returned fastest first. -/
theorem working_nodes_latency_sorted_witness :
    List.Pairwise
      (fun e1 e2 : String × String =>
        ((if e1.1 = "a" then some 10 else some 20 : Option Nat)).getD 0 ≤
          ((if e2.1 = "a" then some 10 else some 20 : Option Nat)).getD 0)
      [("a", "x"), ("b", "y")] :=
  working_nodes_latency_sorted 1 5 [("a", "x"), ("b", "y")]
    [("a", "x"), ("b", "y")] [("a", "x"), ("b", "y")]
    (fun p => if p.1 = "a" then some 10 else some 20)
    (fun p => ⟨p.1, p.2, if p.1 = "a" then some 10 else some 20, 1, 0⟩)
    (fun _ => ⟨rfl, rfl⟩)
    (by simp [topNodes, List.mergeSort])
    (by simp [get_working_public_nodes, topNodes, collectWorking,
      List.mergeSort])

/-- C3 counterexample: the same two endpoints, latencies 10 and 20, are
selected in latency order `a, b`, but the burst workers' results are
appended in the opposite completion order — a legitimate permutation of the
probes of the top nodes — and `get_working_public_nodes` returns
`[b, a]`: the earlier-returned endpoint has the larger measured latency, so
the claimed unconditional latency ordering fails. -/
theorem working_nodes_not_latency_sorted :
    topNodes 5 [⟨"a", "x", some 10⟩, ⟨"b", "y", some 20⟩] =
        .ok [("a", "x"), ("b", "y")] ∧
      List.Perm [RateResult.mk "b" "y" (some 20) 1 0, ⟨"a", "x", some 10, 1, 0⟩]
        (List.map
          (fun p : String × String =>
            ⟨p.1, p.2, if p.1 = "a" then some 10 else some 20, 1, 0⟩)
          [("a", "x"), ("b", "y")]) ∧
      get_working_public_nodes 1 5 [("a", "x"), ("b", "y")]
          [⟨"a", "x", some 10⟩, ⟨"b", "y", some 20⟩]
          [⟨"b", "y", some 20, 1, 0⟩, ⟨"a", "x", some 10, 1, 0⟩] =
        .ok [("b", "y"), ("a", "x")] ∧
      ¬ List.Pairwise
          (fun e1 e2 : String × String =>
            ((if e1.1 = "a" then some 10 else some 20 : Option Nat)).getD 0 ≤
              ((if e2.1 = "a" then some 10 else some 20 : Option Nat)).getD 0)
          [("b", "y"), ("a", "x")] := by
  refine ⟨by simp [topNodes, List.mergeSort], by decide, ?_, by decide⟩
  simp [get_working_public_nodes, topNodes, collectWorking, List.mergeSort]

/-- C4 counterexample: when every scraped candidate fails the latency probe
(a legitimate all-failure collection of the latency phase),
`get_working_public_nodes` raises the fatal `RuntimeError` of line 139
instead of returning the empty list the claim expects. -/
theorem select_fatal_when_none_responsive :
    [LatencyResult.mk "a" "u" none] =
        List.map (fun p : String × String => ⟨p.1, p.2, none⟩) [("a", "u")] ∧
      get_working_public_nodes 50 5 [("a", "u")] [⟨"a", "u", none⟩] [] =
        .error .noResponsive ∧
      (Except.error SelectError.noResponsive ≠
        (.ok [] : Except SelectError (List (String × String)))) := by
  refine ⟨rfl, ?_, fun h => Except.noConfusion h⟩
  simp [get_working_public_nodes, topNodes]

/-- C4 amended: when at least one candidate answers the latency probe but
no probed endpoint survives the full burst, `get_working_public_nodes`
returns the empty list as a normal, non-fatal outcome; zero scraped
candidates and zero latency-responsive candidates remain fatal. -/
theorem select_empty_burst_survivors_ok (burst top_n : Nat)
    (all_nodes tops : List (String × String))
    (latency_results : List LatencyResult) (rate_results : List RateResult)
    (probeOf : String × String → RateResult)
    (hall : all_nodes ≠ [])
    (htop : topNodes top_n latency_results = .ok tops)
    (hperm : rate_results.Perm (tops.map probeOf))
    (hfail : ∀ p ∈ tops, (probeOf p).succ ≠ burst) :
    get_working_public_nodes burst top_n all_nodes latency_results
      rate_results = .ok [] := by
  unfold get_working_public_nodes
  rw [if_neg hall, htop]
  have hf : rate_results.filter (fun r => r.succ == burst) = [] := by
    rw [List.filter_eq_nil_iff]
    intro r hr
    obtain ⟨p, hp, hpr⟩ := List.mem_map.mp (hperm.mem_iff.mp hr)
    rw [← hpr]
    simpa using hfail p hp
  unfold collectWorking
  rw [hf]
  rfl

/-- Witness for the amended C4: one responsive endpoint whose burst of 2
calls only half succeeded yields the empty list, not an error. -/
theorem select_empty_burst_survivors_ok_witness :
    get_working_public_nodes 2 5 [("a", "u")] [⟨"a", "u", some 5⟩]
      [⟨"a", "u", some 5, 1, 0⟩] = .ok [] :=
  select_empty_burst_survivors_ok 2 5 [("a", "u")] [("a", "u")]
    [⟨"a", "u", some 5⟩] [⟨"a", "u", some 5, 1, 0⟩]
    (fun p => ⟨p.1, p.2, some 5, 1, 0⟩) (by decide)
    (by simp [topNodes]) (List.Perm.refl _) (by decide)

/-! ### Concurrent worker pool model for the dedup invariant (C1)

`watch_new_contracts` runs `_process_tx` for many transactions in parallel;
the only shared mutable state is `seen_contracts`, accessed under
`_seen_lock()` in four separate critical sections: the test-and-set of
lines 141-145, and the three `discard`s.  The model below is a small-step
interleaving semantics: each worker is a thread at a program counter, and
one step is one critical section (or one purely local computation) of one
worker.  Steps of distinct workers interleave arbitrarily. -/

/-- Program counter of one worker running `_process_tx`, at the boundaries
of its shared-state accesses. -/
inductive PC where
  | start
  | added
  | fetchedCode
  | doneNone
  | doneEmit (bal : Nat)
deriving DecidableEq, Repr

/-- A worker that passed the test-and-set and has not yet returned or
emitted holds a provisional entry; `doneEmit` keeps its permanent entry. -/
def PC.active : PC → Bool
  | .added => true
  | .fetchedCode => true
  | .doneEmit _ => true
  | _ => false

/-- Whether a worker has emitted its event. -/
def PC.isEmit : PC → Bool
  | .doneEmit _ => true
  | _ => false

/-- Global state of the worker pool: the shared `seen_contracts` set, each
worker's program counter, and the events yielded so far. -/
structure PoolSt (n : Nat) where
  seen : Finset Addr
  pcs : Fin n → PC
  events : List (Addr × Nat)

/-- The initial state: empty seen set (line 59), every worker before its
first step, no events yielded. -/
def initSt (n : Nat) : PoolSt n :=
  ⟨∅, fun _ => .start, []⟩

/-- One interleaved step of the worker pool, `work i` being the RPC
outcomes of worker `i`'s transaction.  Each constructor is one atomic
critical section (or local computation) of `_process_tx`:
receipt handling with no usable address; the locked test-and-set of lines
141-145 (hit and miss); the code fetch with its failure/empty discards of
lines 148-160; the balance fetch with its failure discard of lines
163-169; and the final comparison of lines 171-178, which either emits and
leaves the address in the set, or discards. -/
inductive WStep {n : Nat} (work : Fin n → TxWork) :
    PoolSt n → PoolSt n → Prop where
  | recvNone (s : PoolSt n) (i : Fin n)
      (hpc : s.pcs i = .start) (hc : candidateAddr (work i) = none) :
      WStep work s ⟨s.seen, Function.update s.pcs i .doneNone, s.events⟩
  | tasSeen (s : PoolSt n) (i : Fin n) (a : Addr)
      (hpc : s.pcs i = .start) (hc : candidateAddr (work i) = some a)
      (hm : a ∈ s.seen) :
      WStep work s ⟨s.seen, Function.update s.pcs i .doneNone, s.events⟩
  | tasAdd (s : PoolSt n) (i : Fin n) (a : Addr)
      (hpc : s.pcs i = .start) (hc : candidateAddr (work i) = some a)
      (hm : a ∉ s.seen) :
      WStep work s
        ⟨insert a s.seen, Function.update s.pcs i .added, s.events⟩
  | codeFail (s : PoolSt n) (i : Fin n) (a : Addr)
      (hpc : s.pcs i = .added) (hc : candidateAddr (work i) = some a)
      (hcode : (work i).code = none) :
      WStep work s
        ⟨s.seen.erase a, Function.update s.pcs i .doneNone, s.events⟩
  | codeEmpty (s : PoolSt n) (i : Fin n) (a : Addr)
      (hpc : s.pcs i = .added) (hc : candidateAddr (work i) = some a)
      (hcode : (work i).code = some []) :
      WStep work s
        ⟨s.seen.erase a, Function.update s.pcs i .doneNone, s.events⟩
  | codeNonempty (s : PoolSt n) (i : Fin n) (a : Addr) (code : List Nat)
      (hpc : s.pcs i = .added) (hc : candidateAddr (work i) = some a)
      (hcode : (work i).code = some code) (hne : code ≠ []) :
      WStep work s ⟨s.seen, Function.update s.pcs i .fetchedCode, s.events⟩
  | balFail (s : PoolSt n) (i : Fin n) (a : Addr)
      (hpc : s.pcs i = .fetchedCode) (hc : candidateAddr (work i) = some a)
      (hbal : (work i).bal = none) :
      WStep work s
        ⟨s.seen.erase a, Function.update s.pcs i .doneNone, s.events⟩
  | balLow (s : PoolSt n) (i : Fin n) (a : Addr) (b : Nat)
      (hpc : s.pcs i = .fetchedCode) (hc : candidateAddr (work i) = some a)
      (hbal : (work i).bal = some b) (hle : ¬ b > threshold) :
      WStep work s
        ⟨s.seen.erase a, Function.update s.pcs i .doneNone, s.events⟩
  | emit (s : PoolSt n) (i : Fin n) (a : Addr) (b : Nat)
      (hpc : s.pcs i = .fetchedCode) (hc : candidateAddr (work i) = some a)
      (hbal : (work i).bal = some b) (hgt : b > threshold) :
      WStep work s
        ⟨s.seen, Function.update s.pcs i (.doneEmit b),
          s.events ++ [(a, b)]⟩

/-- States reachable by interleaved worker steps from the initial state. -/
def Reached {n : Nat} (work : Fin n → TxWork) (s : PoolSt n) : Prop :=
  Relation.ReflTransGen (WStep work) (initSt n) s

/-- Worker `i` is in flight on, or has completed a report for, address `a`:
its transaction resolves to `a` and it holds an entry in the seen set. -/
def activeOn {n : Nat} (work : Fin n → TxWork) (pcs : Fin n → PC)
    (a : Addr) (i : Fin n) : Prop :=
  candidateAddr (work i) = some a ∧ (pcs i).active = true

/-- The pool invariant: seen-set membership is exactly one worker being in
flight or completed on the address, such a worker is unique, and the event
count of an address is 1 precisely when some worker emitted for it. -/
structure Inv {n : Nat} (work : Fin n → TxWork) (s : PoolSt n) : Prop where
  seen_iff : ∀ a, a ∈ s.seen ↔ ∃ i, activeOn work s.pcs a i
  uniq : ∀ a i j, activeOn work s.pcs a i → activeOn work s.pcs a j → i = j
  events_count : ∀ a, s.events.countP (fun e => e.1 == a) =
    if ∃ i, candidateAddr (work i) = some a ∧ (s.pcs i).isEmit = true
    then 1 else 0

/-- Updating a worker's counter without changing its holding status leaves
every activity judgement unchanged. -/
theorem activeOn_update {n : Nat} {work : Fin n → TxWork}
    {pcs : Fin n → PC} {i : Fin n} {v : PC}
    (hv : v.active = (pcs i).active) (a : Addr) (j : Fin n) :
    activeOn work (Function.update pcs i v) a j ↔ activeOn work pcs a j := by
  unfold activeOn
  by_cases hj : j = i
  · subst hj
    rw [Function.update_same, hv]
  · rw [Function.update_noteq hj]

/-- A step that only moves one worker's counter, preserving its holding and
emission status, preserves the invariant. -/
theorem inv_update_silent {n : Nat} {work : Fin n → TxWork} {s : PoolSt n}
    (hi : Inv work s) {i : Fin n} {v : PC}
    (hact : v.active = (s.pcs i).active)
    (hemit : v.isEmit = (s.pcs i).isEmit) :
    Inv work ⟨s.seen, Function.update s.pcs i v, s.events⟩ := by
  constructor
  · intro a
    simp only [activeOn_update hact]
    exact hi.seen_iff a
  · intro a j k hj hk
    exact hi.uniq a j k ((activeOn_update hact a j).mp hj)
      ((activeOn_update hact a k).mp hk)
  · intro a
    have hcond : (∃ m, candidateAddr (work m) = some a ∧
        ((Function.update s.pcs i v) m).isEmit = true) ↔
        (∃ m, candidateAddr (work m) = some a ∧
          (s.pcs m).isEmit = true) := by
      refine exists_congr fun m => and_congr_right fun _ => ?_
      by_cases hmi : m = i
      · subst hmi
        rw [Function.update_same, hemit]
      · rw [Function.update_noteq hmi]
    simp only [hcond]
    exact hi.events_count a

/-- A worker that held a provisional (non-emitted) entry for `a` and
discards it preserves the invariant: the erase exactly removes the sole
entry the worker held. -/
theorem inv_release {n : Nat} {work : Fin n → TxWork} {s : PoolSt n}
    (hi : Inv work s) (i : Fin n) (a : Addr)
    (hc : candidateAddr (work i) = some a)
    (hact : (s.pcs i).active = true) (hemit : (s.pcs i).isEmit = false) :
    Inv work ⟨s.seen.erase a, Function.update s.pcs i .doneNone,
      s.events⟩ := by
  have hai : activeOn work s.pcs a i := ⟨hc, hact⟩
  have hstrip : ∀ b m,
      activeOn work (Function.update s.pcs i PC.doneNone) b m →
      m ≠ i ∧ activeOn work s.pcs b m := by
    intro b m hm
    by_cases hmi : m = i
    · subst hmi
      unfold activeOn at hm
      rw [Function.update_same] at hm
      exact absurd hm.2 (by simp [PC.active])
    · unfold activeOn at hm
      rw [Function.update_noteq hmi] at hm
      exact ⟨hmi, hm⟩
  constructor
  · intro b
    simp only [Finset.mem_erase]
    constructor
    · rintro ⟨hba, hbs⟩
      obtain ⟨j, hj⟩ := (hi.seen_iff b).mp hbs
      have hji : j ≠ i := by
        intro he
        subst he
        exact hba (Option.some.inj (hj.1.symm.trans hc))
      refine ⟨j, ?_⟩
      unfold activeOn at hj ⊢
      rw [Function.update_noteq hji]
      exact hj
    · rintro ⟨j, hj⟩
      obtain ⟨hji, hj'⟩ := hstrip b j hj
      refine ⟨fun hba => ?_, (hi.seen_iff b).mpr ⟨j, hj'⟩⟩
      subst hba
      exact hji (hi.uniq b j i hj' hai)
  · intro b j k hj hk
    exact hi.uniq b j k (hstrip b j hj).2 (hstrip b k hk).2
  · intro b
    have hcond : (∃ m, candidateAddr (work m) = some b ∧
        ((Function.update s.pcs i PC.doneNone) m).isEmit = true) ↔
        (∃ m, candidateAddr (work m) = some b ∧
          (s.pcs m).isEmit = true) := by
      refine exists_congr fun m => and_congr_right fun _ => ?_
      by_cases hmi : m = i
      · subst hmi
        rw [Function.update_same, hemit]
        simp [PC.isEmit]
      · rw [Function.update_noteq hmi]
    simp only [hcond]
    exact hi.events_count b

/-- The locked test-and-set that inserts a fresh address preserves the
invariant: the inserting worker becomes the sole holder. -/
theorem inv_add {n : Nat} {work : Fin n → TxWork} {s : PoolSt n}
    (hi : Inv work s) (i : Fin n) (a : Addr)
    (hpc : s.pcs i = .start) (hc : candidateAddr (work i) = some a)
    (hm : a ∉ s.seen) :
    Inv work ⟨insert a s.seen, Function.update s.pcs i .added,
      s.events⟩ := by
  have hnoact : ∀ j, ¬ activeOn work s.pcs a j := by
    intro j hj
    exact hm ((hi.seen_iff a).mpr ⟨j, hj⟩)
  constructor
  · intro b
    simp only [Finset.mem_insert]
    by_cases hba : b = a
    · subst hba
      refine iff_of_true (Or.inl rfl) ⟨i, hc, ?_⟩
      rw [Function.update_same]
      rfl
    · rw [or_iff_right hba, hi.seen_iff b]
      refine (exists_congr fun j => ?_).symm
      unfold activeOn
      by_cases hji : j = i
      · subst hji
        rw [Function.update_same, hpc, hc]
        refine iff_of_false (fun h => ?_) (fun h => ?_)
        · exact hba (Option.some.inj h.1).symm
        · exact absurd h.2 (by simp [PC.active])
      · rw [Function.update_noteq hji]
  · intro b j k hj hk
    by_cases hba : b = a
    · have honly : ∀ m,
          activeOn work (Function.update s.pcs i PC.added) b m → m = i := by
        intro m hm'
        by_cases hmi : m = i
        · exact hmi
        · unfold activeOn at hm'
          rw [Function.update_noteq hmi] at hm'
          rw [hba] at hm'
          exact absurd hm' (hnoact m)
      rw [honly j hj, honly k hk]
    · have hstrip : ∀ m,
          activeOn work (Function.update s.pcs i PC.added) b m →
          activeOn work s.pcs b m := by
        intro m hm'
        by_cases hmi : m = i
        · subst hmi
          unfold activeOn at hm'
          rw [Function.update_same] at hm'
          exact absurd (Option.some.inj (hc.symm.trans hm'.1)).symm hba
        · unfold activeOn at hm'
          rw [Function.update_noteq hmi] at hm'
          exact hm'
      exact hi.uniq b j k (hstrip j hj) (hstrip k hk)
  · intro b
    have hcond : (∃ m, candidateAddr (work m) = some b ∧
        ((Function.update s.pcs i PC.added) m).isEmit = true) ↔
        (∃ m, candidateAddr (work m) = some b ∧
          (s.pcs m).isEmit = true) := by
      refine exists_congr fun m => and_congr_right fun _ => ?_
      by_cases hmi : m = i
      · subst hmi
        rw [Function.update_same, hpc]
        simp [PC.isEmit]
      · rw [Function.update_noteq hmi]
    simp only [hcond]
    exact hi.events_count b

/-- The emitting step preserves the invariant: the emitter was the sole
holder for its address and no event for that address existed yet, so the
appended event brings the count for it from 0 to 1. -/
theorem inv_emit {n : Nat} {work : Fin n → TxWork} {s : PoolSt n}
    (hi : Inv work s) (i : Fin n) (a : Addr) (b : Nat)
    (hpc : s.pcs i = .fetchedCode)
    (hc : candidateAddr (work i) = some a) :
    Inv work ⟨s.seen, Function.update s.pcs i (.doneEmit b),
      s.events ++ [(a, b)]⟩ := by
  have hact : (PC.doneEmit b).active = (s.pcs i).active := by
    rw [hpc]
    rfl
  have hai : activeOn work s.pcs a i := ⟨hc, by rw [hpc]; rfl⟩
  constructor
  · intro c
    simp only [activeOn_update hact]
    exact hi.seen_iff c
  · intro c j k hj hk
    exact hi.uniq c j k ((activeOn_update hact c j).mp hj)
      ((activeOn_update hact c k).mp hk)
  · intro c
    rw [List.countP_append]
    by_cases hca : c = a
    · subst hca
      have hold : s.events.countP (fun e => e.1 == c) = 0 := by
        rw [hi.events_count c, if_neg]
        rintro ⟨m, hm1, hm2⟩
        have hemitact : (s.pcs m).active = true := by
          cases hpm : s.pcs m with
          | start => rw [hpm] at hm2; exact absurd hm2 (by simp [PC.isEmit])
          | added => rw [hpm] at hm2; exact absurd hm2 (by simp [PC.isEmit])
          | fetchedCode =>
            rw [hpm] at hm2; exact absurd hm2 (by simp [PC.isEmit])
          | doneNone =>
            rw [hpm] at hm2; exact absurd hm2 (by simp [PC.isEmit])
          | doneEmit bal => rfl
        have hmi : m = i := hi.uniq c m i ⟨hm1, hemitact⟩ hai
        subst hmi
        rw [hpc] at hm2
        exact absurd hm2 (by simp [PC.isEmit])
      have hnew : List.countP (fun e => e.1 == c) [(c, b)] = 1 := by
        simp
      rw [hold, hnew, if_pos ⟨i, hc, by simp [PC.isEmit]⟩]
    · have hnew : List.countP (fun e => e.1 == c) [(a, b)] = 0 := by
        simp [List.countP_cons]
        exact fun h => hca h.symm
      have hcond : (∃ m, candidateAddr (work m) = some c ∧
          ((Function.update s.pcs i (PC.doneEmit b)) m).isEmit = true) ↔
          (∃ m, candidateAddr (work m) = some c ∧
            (s.pcs m).isEmit = true) := by
        refine exists_congr fun m => ?_
        by_cases hmi : m = i
        · subst hmi
          refine iff_of_false (fun h => ?_) (fun h => ?_) <;>
            exact hca (Option.some.inj (hc.symm.trans h.1)).symm
        · rw [Function.update_noteq hmi]
      rw [hnew, Nat.add_zero]
      simp only [hcond]
      exact hi.events_count c

/-- The initial pool state satisfies the invariant. -/
theorem inv_init (n : Nat) (work : Fin n → TxWork) :
    Inv work (initSt n) := by
  constructor
  · intro a
    simp [initSt, activeOn, PC.active]
  · intro a i j hri hrj
    exact absurd hri.2 (by simp [initSt, PC.active])
  · intro a
    simp [initSt, PC.isEmit]

/-- Every interleaved worker step preserves the pool invariant. -/
theorem inv_step {n : Nat} {work : Fin n → TxWork} {s t : PoolSt n}
    (h : WStep work s t) (hi : Inv work s) : Inv work t := by
  cases h with
  | recvNone i hpc hc =>
    exact inv_update_silent hi (by rw [hpc]; rfl) (by rw [hpc]; rfl)
  | tasSeen i a hpc hc hm =>
    exact inv_update_silent hi (by rw [hpc]; rfl) (by rw [hpc]; rfl)
  | tasAdd i a hpc hc hm => exact inv_add hi i a hpc hc hm
  | codeFail i a hpc hc hcode =>
    exact inv_release hi i a hc (by rw [hpc]; rfl) (by rw [hpc]; rfl)
  | codeEmpty i a hpc hc hcode =>
    exact inv_release hi i a hc (by rw [hpc]; rfl) (by rw [hpc]; rfl)
  | codeNonempty i a code hpc hc hcode hne =>
    exact inv_update_silent hi (by rw [hpc]; rfl) (by rw [hpc]; rfl)
  | balFail i a hpc hc hbal =>
    exact inv_release hi i a hc (by rw [hpc]; rfl) (by rw [hpc]; rfl)
  | balLow i a b hpc hc hbal hle =>
    exact inv_release hi i a hc (by rw [hpc]; rfl) (by rw [hpc]; rfl)
  | emit i a b hpc hc hbal hgt => exact inv_emit hi i a b hpc hc

/-- The pool invariant holds in every reachable state. -/
theorem inv_reached {n : Nat} {work : Fin n → TxWork} {s : PoolSt n}
    (h : Reached work s) : Inv work s := by
  induction h with
  | refl => exact inv_init n work
  | tail hab hbc ih => exact inv_step hbc ih

/-- C1: in every state reachable by any interleaving of workers, at most
one event has been emitted for any given address, and at most one worker at
a time is in flight on or has completed a report for it — the dedup
guarantee enforced by the locked test-and-set of `_process_tx`. -/
theorem at_most_one_event_per_address {n : Nat} (work : Fin n → TxWork)
    (s : PoolSt n) (a : Addr) (h : Reached work s) :
    s.events.countP (fun e => e.1 == a) ≤ 1 ∧
      ∀ i j, activeOn work s.pcs a i → activeOn work s.pcs a j → i = j := by
  have hi := inv_reached h
  refine ⟨?_, hi.uniq a⟩
  rw [hi.events_count a]
  split <;> omega

/-- Witness for C1: after one worker's successful test-and-set on address 7
(a reachable state), the event count for 7 is at most one and in-flight
workers on 7 are unique. -/
theorem at_most_one_event_per_address_witness :
    (PoolSt.mk (insert 7 (∅ : Finset Addr))
        (Function.update (fun _ => PC.start) (0 : Fin 2) PC.added)
        []).events.countP (fun e => e.1 == 7) ≤ 1 ∧
      ∀ i j, activeOn
          (fun _ : Fin 2 =>
            TxWork.mk (some ⟨some 7, none⟩) (some [1])
              (some (threshold + 1)))
          (Function.update (fun _ => PC.start) (0 : Fin 2) PC.added) 7 i →
        activeOn
          (fun _ : Fin 2 =>
            TxWork.mk (some ⟨some 7, none⟩) (some [1])
              (some (threshold + 1)))
          (Function.update (fun _ => PC.start) (0 : Fin 2) PC.added) 7 j →
        i = j :=
  at_most_one_event_per_address
    (fun _ : Fin 2 =>
      TxWork.mk (some ⟨some 7, none⟩) (some [1]) (some (threshold + 1)))
    ⟨insert 7 ∅, Function.update (fun _ => PC.start) (0 : Fin 2) PC.added,
      []⟩ 7
    (Relation.ReflTransGen.single
      (WStep.tasAdd (initSt 2) 0 7 rfl rfl (by simp [initSt])))

end ContractSniffer
